import Mathlib

/-!
Verification development for the `cindex` index-build driver
(`cmd/cindex/cindex.go`): path canonicalization, directory traversal with
skip rules, multi-encoding detection, and the build/merge/publish protocol.

The Go program is shallowly embedded:

* filesystem calls (`filepath.Abs`, `os.Readlink`, `os.Stat`, `os.Open`,
  `Seek`) are modelled as explicit environment functions or per-file flags;
* the trigram index library (`index.Create`, `AddPaths`, `Add`, `Flush`,
  `Merge`, `os.Remove`, `os.Rename`) is an external collaborator, so its
  invocations are recorded as an ordered effect trace (`Eff`);
* a Go panic (nil-pointer dereference) is `Except.error ()`;
* byte streams are `List Nat`, and a text encoding is a predicate saying
  which byte streams it fully decodes plus its decoding function.

The CPU-profiling flag is omitted (explicitly out of the system's scope).
-/

namespace Cindex

/-- Lexicographic comparison of character lists; models the string order
used by Go's `sort.Strings` (byte-wise lexicographic, which agrees with
the code-point order on UTF-8 text). -/
def lexLe : List Char → List Char → Bool
  | [], _ => true
  | _ :: _, [] => false
  | a :: as, b :: bs => if a < b then true else if b < a then false else lexLe as bs

/-- String order derived from `lexLe`. -/
def strLe (a b : String) : Bool := lexLe a.data b.data

/-- Model of `sort.Strings(args)` (cindex.go:117): sort ascending in the
lexicographic string order.  The sorting algorithm itself is irrelevant to
the source's contract, so insertion sort is used. -/
def sortStrings (l : List String) : List String :=
  List.insertionSort (fun a b => strLe a b = true) l

/-- Loop at cindex.go:119-121: `for len(args) > 0 && args[0] == "" { args =
args[1:] }` — drop the leading block of empty strings. -/
def dropLeadingEmpties : List String → List String
  | [] => []
  | a :: rest => if a = "" then dropLeadingEmpties rest else a :: rest

/-- Body of the loop at cindex.go:105-116 for one argument: `filepath.Abs`,
then a single `os.Readlink` whose target replaces the path only when the
call succeeds with a nonempty target; an `Abs` failure logs and leaves the
empty string in place.  `abs` and `readlink` model the two system calls
(`none` = the call returned an error). -/
def resolveArg (abs readlink : String → Option String) (arg : String) : String :=
  match abs arg with
  | none => ""
  | some a =>
    match readlink a with
    | some s => if s = "" then a else s
    | none => a

/-- cindex.go:105-121: resolve every argument, sort, drop the leading
empty entries.  This is the list handed to `AddPaths` and walked. -/
def canonicalize (abs readlink : String → Option String) (args : List String) :
    List String :=
  dropLeadingEmpties (sortStrings (args.map (resolveArg abs readlink)))

/-- A candidate text encoding (an element of the `encodings` slice built at
cindex.go:132-143): `validates bs = true` iff fully decoding `bs` with this
encoding's decoder succeeds (the `io.Copy(ioutil.Discard, r)` probe returns
no error), and `decode bs` is the decoder's output on `bs`. -/
structure Encoding where
  validates : List Nat → Bool
  decode : List Nat → List Nat

/-- On-disk state of one file as seen by `openEncoded`: whether `os.Open`
fails, whether `fh.Seek(0, 0)` fails (modelled as a persistent property of
the file's handle), and the file's byte content. -/
structure FileModel where
  openFails : Bool
  seekFails : Bool
  bytes : List Nat
deriving DecidableEq

/-- Probe loop at cindex.go:194-202: for each candidate encoding, attempt a
full decode; a successful candidate overwrites `found`; after every
attempt the stream is rewound, and a rewind failure returns the error. -/
def probeLoop (f : FileModel) : List Encoding → Option Encoding →
    Except Unit (Option Encoding)
  | [], found => .ok found
  | e :: rest, found =>
    let found₁ := if e.validates f.bytes then some e else found
    if f.seekFails then .error () else probeLoop f rest found₁

/-- Lifecycle state of the file handle opened by `openEncoded`. -/
inductive HState where
  | neverOpened
  | opened
  | closed
deriving DecidableEq

/-- openEncoded (cindex.go:188-210).  Returns the handle's state at the
moment `openEncoded` returns, together with either an error or the content
the returned reader yields (raw bytes when no candidate validates,
otherwise the last validating candidate's decoding). -/
def openEncoded (f : FileModel) (encodings : List Encoding) :
    HState × Except Unit (List Nat) :=
  if f.openFails then (.neverOpened, .error ())
  else
    match probeLoop f encodings none with
    | .error () => (.opened, .error ())
    | .ok none => (.opened, .ok f.bytes)
    | .ok (some e) => (.opened, .ok (e.decode f.bytes))

/-- One file's full processing in `main`'s walk callback (cindex.go:165-170):
`openEncoded`, then on success `ix.Add(path, r); r.Close()`.  Result: the
handle's final state and whether an error was returned to the walk. -/
def processFile (f : FileModel) (encodings : List Encoding) : HState × Bool :=
  match openEncoded f encodings with
  | (h, .error ()) => (h, true)
  | (_, .ok _) => (.closed, false)

/-- One entry of the run's effect trace: calls into the index library,
filesystem mutations, and diagnostics.  `add` and `addPaths` carry the
build session's target file (the file passed to `index.Create`). -/
inductive Eff where
  | print (s : String)
  | logLine (s : String)
  | remove (p : String)
  | create (p : String)
  | setVerbose (b : Bool)
  | addPaths (target : String) (paths : List String)
  | add (target : String) (path : String) (content : List Nat)
  | flush (p : String)
  | merge (dst src1 src2 : String)
  | rename (src dst : String)
deriving DecidableEq

/-- Paths an effect deletes or writes. -/
def Eff.writesTo : Eff → List String
  | .print _ => []
  | .logLine _ => []
  | .setVerbose _ => []
  | .remove p => [p]
  | .create p => [p]
  | .addPaths t _ => [t]
  | .add t _ _ => [t]
  | .flush p => [p]
  | .merge dst _ _ => [dst]
  | .rename src dst => [src, dst]

/-- What the walk callback reads off a non-nil `os.FileInfo`: the directory
bit, and whether the mode is a plain regular file (`Mode()&os.ModeType == 0`,
which excludes directories, symlinks and special files). -/
structure NodeInfo where
  isDir : Bool
  regular : Bool
deriving DecidableEq

/-- Return value of the walk callback and of `filepath.walk`: nil,
`filepath.SkipDir`, or any other non-nil error. -/
inductive WalkSig where
  | ok
  | skipDir
  | fatal
deriving DecidableEq

/-- Base-name extraction `_, elem := filepath.Split(path)` (cindex.go:151):
everything after the last `/`. -/
def splitElem (path : String) : String :=
  String.mk ((path.data.reverse.takeWhile (fun c => c != '/')).reverse)

/-- Skip test at cindex.go:151-153: a nonempty base name that starts with
`.`, `#` or `~`, or ends with `~`. -/
def skipName (elem : String) : Bool :=
  match elem.data with
  | [] => false
  | c :: cs => c == '.' || c == '#' || c == '~' || List.getLastD (c :: cs) ' ' == '~'

/-- Placeholder file state passed to the callback where no file content is
involved (directories, entries whose lstat failed). -/
def defaultFm : FileModel := ⟨false, false, []⟩

/-- The walk callback closure at cindex.go:150-172.  `info = none` models a
nil `os.FileInfo` (the entry's lstat failed); `err` is the incoming
traversal error.  Mirrors the source's order: the name-based skip check
runs first (calling `IsDir` on the possibly-nil info — a nil dereference is
`Except.error ()`), then the error check (log and skip), then the
regular-file check, `openEncoded`, and `ix.Add` plus `Close`.  An
`openEncoded` failure is returned as a (non-`SkipDir`) error. -/
def walkFn (encodings : List Encoding) (target : String) (st : List Eff)
    (path : String) (info : Option NodeInfo) (err : Bool) (fm : FileModel) :
    Except Unit (List Eff × WalkSig) :=
  if skipName (splitElem path) then
    match info with
    | none => .error ()
    | some i => if i.isDir then .ok (st, .skipDir) else .ok (st, .ok)
  else if err then
    .ok (st ++ [.logLine (path ++ ": walk error")], .ok)
  else
    match info with
    | none => .ok (st, .ok)
    | some i =>
      if i.regular then
        match openEncoded fm encodings with
        | (_, .error ()) => .ok (st, .fatal)
        | (_, .ok content) => .ok (st ++ [.add target path content], .ok)
      else .ok (st, .ok)

/-- One filesystem subtree as the walk observes it.  A directory's children
are listed in the sorted order `readDirNames` yields them; `readErr` means
reading the directory failed (no children are visited then); `statErr`
marks an entry whose `lstat` fails (the callback receives a nil info);
`regular` on a file is the `Mode()&os.ModeType == 0` bit. -/
inductive Entry where
  | file (name : String) (regular : Bool) (fm : FileModel)
  | dir (name : String) (readErr : Bool) (children : List Entry)
  | statErr (name : String)

/-- Base name of an entry. -/
def Entry.nameOf : Entry → String
  | .file n _ _ => n
  | .dir n _ _ => n
  | .statErr n => n

/-- The `fileInfo.IsDir()` bit the parent loop consults. -/
def Entry.isDirE : Entry → Bool
  | .dir _ _ _ => true
  | _ => false

mutual

/-- `filepath.walk(path, info, walkFn)` — only entered after a successful
lstat.  Non-directories go straight to the callback; a directory first runs
the callback with the readdir error, stops on `readErr` or a non-nil
callback result, and otherwise visits its children. -/
def goWalk (encodings : List Encoding) (target : String) :
    String → Entry → List Eff → Except Unit (List Eff × WalkSig)
  | path, .file _ regular fm, st =>
    walkFn encodings target st path (some ⟨false, regular⟩) false fm
  | _, .statErr _, st =>
    -- never entered: lstat failures are dispatched by the caller
    .ok (st, .ok)
  | path, .dir _ readErr children, st =>
    match walkFn encodings target st path (some ⟨true, false⟩) readErr defaultFm with
    | .error () => .error ()
    | .ok (st₁, r₁) =>
      if readErr = true ∨ r₁ ≠ .ok then .ok (st₁, r₁)
      else goWalkChildren encodings target path children st₁

/-- The child loop of `filepath.walk`: lstat each child (a `statErr` child
invokes the callback with a nil info and continues unless the callback's
error is non-nil and not `SkipDir`); otherwise recurse, stopping on an
error unless it is `SkipDir` from a directory. -/
def goWalkChildren (encodings : List Encoding) (target : String) :
    String → List Entry → List Eff → Except Unit (List Eff × WalkSig)
  | _, [], st => .ok (st, .ok)
  | dirPath, .statErr name :: rest, st =>
    match walkFn encodings target st (dirPath ++ "/" ++ name) none true defaultFm with
    | .error () => .error ()
    | .ok (st₁, r) =>
      if r = .fatal then .ok (st₁, .fatal)
      else goWalkChildren encodings target dirPath rest st₁
  | dirPath, c :: rest, st =>
    match goWalk encodings target (dirPath ++ "/" ++ c.nameOf) c st with
    | .error () => .error ()
    | .ok (st₁, r) =>
      if r ≠ .ok ∧ (c.isDirE = false ∨ r ≠ .skipDir) then .ok (st₁, r)
      else goWalkChildren encodings target dirPath rest st₁

end

/-- `filepath.Walk(root, fn)` as used at cindex.go:150: lstat the root (a
`statErr` root goes to the callback with nil info), walk, and discard the
walk's returned error — cindex ignores `Walk`'s result. -/
def goWalkTop (encodings : List Encoding) (target : String) (rootPath : String)
    (root : Entry) (st : List Eff) : Except Unit (List Eff) :=
  match root with
  | .statErr _ =>
    match walkFn encodings target st rootPath none true defaultFm with
    | .error () => .error ()
    | .ok (st₁, _) => .ok st₁
  | root =>
    match goWalk encodings target rootPath root st with
    | .error () => .error ()
    | .ok (st₁, _) => .ok st₁

/-- The per-root loop at cindex.go:148-174: log `index <root>`, walk the
root, continue with the next root whatever the walk returned. -/
def runWalks (encodings : List Encoding) (target : String) :
    List (String × Entry) → List Eff → Except Unit (List Eff)
  | [], st => .ok st
  | r :: rest, st =>
    match goWalkTop encodings target r.1 r.2 (st ++ [.logLine ("index " ++ r.1)]) with
    | .error () => .error ()
    | .ok st₁ => runWalks encodings target rest st₁

mutual

/-- No entry whose lstat fails has a skip-matching or slash-containing base
name anywhere in this subtree (the condition under which the walk cannot
hit the nil-info dereference). -/
def noBadErr : Entry → Bool
  | .file _ _ _ => true
  | .statErr n => !skipName n && n.data.all (fun c => c != '/')
  | .dir _ _ cs => noBadErrList cs

/-- List form of `noBadErr`. -/
def noBadErrList : List Entry → Bool
  | [] => true
  | c :: cs => noBadErr c && noBadErrList cs

end

/-- Crash-safety condition for one walked root: if the root's own lstat
fails, its path's base name must not match a skip rule; otherwise the
subtree condition `noBadErr`. -/
def rootErrOk (rootPath : String) (e : Entry) : Bool :=
  match e with
  | .statErr _ => !skipName (splitElem rootPath)
  | e => noBadErr e

/-- An effect the walk phase may emit: a diagnostic line, or an `Add` into
the session's target file under a non-skip-matching base name. -/
def walkEff (target : String) (e : Eff) : Prop :=
  (∃ s, e = .logLine s) ∨
  ∃ p c, e = .add target p c ∧ skipName (splitElem p) = false

/-- Whitespace test of Go's `strings.TrimSpace` (ASCII part). -/
def isSpaceChar (c : Char) : Bool :=
  c == ' ' || c == '\t' || c == '\n' || c == '\r'

/-- Trim leading and trailing whitespace. -/
def trimChars (l : List Char) : List Char :=
  ((l.dropWhile isSpaceChar).reverse.dropWhile isSpaceChar).reverse

/-- Model of `strings.Split(s, ",")` on character lists. -/
def splitComma : List Char → List Char → List (List Char)
  | [], acc => [acc.reverse]
  | c :: cs, acc =>
    if c == ',' then acc.reverse :: splitComma cs [] else splitComma cs (c :: acc)

/-- The loop at cindex.go:133-143 over the already-split pieces: trim, skip
empty pieces, look each name up (`htmlindex.Get`, modelled by `getEnc`);
the first unknown name is logged and ends the run. -/
def parseEncodingsLoop (getEnc : String → Option Encoding) :
    List (List Char) → List Encoding → Except String (List Encoding)
  | [], acc => .ok acc
  | s :: rest, acc =>
    let t := String.mk (trimChars s)
    if t = "" then parseEncodingsLoop getEnc rest acc
    else
      match getEnc t with
      | none => .error t
      | some e => parseEncodingsLoop getEnc rest (acc ++ [e])

/-- cindex.go:132-143: split the `-encodings` flag on commas and resolve
every named encoding, failing on the first unknown name. -/
def parseEncodings (getEnc : String → Option Encoding) (flagValue : String) :
    Except String (List Encoding) :=
  parseEncodingsLoop getEnc (splitComma flagValue.data []) []

/-- Diagnostics the canonicalization loop logs: one line per argument whose
`filepath.Abs` failed (cindex.go:107-110). -/
def resolveFailLogs (abs : String → Option String) (args : List String) : List Eff :=
  args.filterMap fun a =>
    match abs a with
    | none => some (.logLine (a ++ ": resolve error"))
    | some _ => none

/-- The command-line surface of one run (the flags at cindex.go:61-67 minus
the out-of-scope CPU profile, plus the positional arguments). -/
structure Config where
  listFlag : Bool
  resetFlag : Bool
  verboseFlag : Bool
  encodingsFlag : String
  args : List String

/-- The ambient system state one run observes: the published index's
well-known location (`index.File()`), whether a file exists there
(`os.Stat`), the paths recorded in the existing index (`ix.Paths()`), the
path-resolution calls, the encoding registry (`htmlindex.Get`), and the
directory tree rooted at each canonicalized path. -/
structure Env where
  indexFile : String
  indexExists : Bool
  knownPaths : List String
  abs : String → Option String
  readlink : String → Option String
  getEnc : String → Option Encoding
  tree : String → Entry

/-- The whole of `main` (cindex.go:69-186) as an effect trace: the `-list`
branch, the `-reset`-with-no-arguments branch, argument defaulting from the
existing index, canonicalization, staging-vs-direct target choice
(cindex.go:123-131), encoding parsing, `index.Create`/`AddPaths`, the
per-root walks, `Flush`, and in incremental mode `Merge` into a second
`~`-suffixed temporary, removal of the staging file, and the final
`Rename` over the published index (cindex.go:178-183). -/
def main (env : Env) (cfg : Config) : Except Unit (List Eff) :=
  if cfg.listFlag then
    .ok (env.knownPaths.map Eff.print)
  else if cfg.resetFlag = true ∧ cfg.args = [] then
    .ok [.remove env.indexFile]
  else
    let args0 := if cfg.args = [] then env.knownPaths else cfg.args
    let args := canonicalize env.abs env.readlink args0
    let master := env.indexFile
    let reset := cfg.resetFlag = true ∨ env.indexExists = false
    let file := if reset then master else master ++ "~"
    match parseEncodings env.getEnc cfg.encodingsFlag with
    | .error name =>
      .ok (resolveFailLogs env.abs args0 ++ [.logLine (name ++ ": unknown encoding")])
    | .ok encodings =>
      let st0 := resolveFailLogs env.abs args0 ++
        [.create file, .setVerbose cfg.verboseFlag, .addPaths file args]
      match runWalks encodings file (args.map fun a => (a, env.tree a)) st0 with
      | .error () => .error ()
      | .ok st₁ =>
        let st₂ := st₁ ++ [.logLine "flush index", .flush file]
        let st₃ :=
          if reset then st₂
          else
            st₂ ++ [.logLine ("merge " ++ master ++ " " ++ file),
                    .merge (file ++ "~") master file,
                    .remove file,
                    .rename (file ++ "~") master]
        .ok (st₃ ++ [.logLine "done"])

/-- Concrete environment shared by the run-level witnesses: published index
at `IDX`, identity absolute-path resolution, no symlinks, no known
encodings, and a tree whose roots fail lstat with a non-skip name. -/
def envW : Env :=
  ⟨"IDX", true, [], fun s => some s, fun _ => none, fun _ => none,
    fun _ => Entry.statErr "r"⟩

/-- Trace of the incremental witness run. -/
def trW : List Eff :=
  [Eff.create "IDX~", Eff.setVerbose false, Eff.addPaths "IDX~" ["/r"],
   Eff.logLine "index /r", Eff.logLine "/r: walk error",
   Eff.logLine "flush index", Eff.flush "IDX~",
   Eff.logLine "merge IDX IDX~",
   Eff.merge "IDX~~" "IDX" "IDX~", Eff.remove "IDX~",
   Eff.rename "IDX~~" "IDX", Eff.logLine "done"]

/-- Trace of the direct-mode (reset-with-paths) witness run. -/
def trW10 : List Eff :=
  [Eff.create "IDX", Eff.setVerbose false, Eff.addPaths "IDX" ["/r"],
   Eff.logLine "index /r", Eff.logLine "/r: walk error",
   Eff.logLine "flush index", Eff.flush "IDX", Eff.logLine "done"]

end Cindex

namespace Cindex

/-! ### Facts about the string order -/

theorem lexLe_nil_left (l : List Char) : lexLe [] l = true := rfl

theorem lexLe_total (a : List Char) : ∀ b, lexLe a b = true ∨ lexLe b a = true := by
  induction a with
  | nil => intro b; left; rfl
  | cons x xs ih =>
    intro b
    cases b with
    | nil => right; rfl
    | cons y ys =>
      rcases lt_trichotomy x y with h | h | h
      · left; simp [lexLe, h]
      · subst h
        rcases ih ys with h2 | h2
        · left; simp [lexLe, lt_irrefl, h2]
        · right; simp [lexLe, lt_irrefl, h2]
      · right; simp [lexLe, h]

theorem lexLe_trans (a : List Char) :
    ∀ b c, lexLe a b = true → lexLe b c = true → lexLe a c = true := by
  induction a with
  | nil => intro b c _ _; rfl
  | cons x xs ih =>
    intro b c hab hbc
    cases b with
    | nil => simp [lexLe] at hab
    | cons y ys =>
      cases c with
      | nil => simp [lexLe] at hbc
      | cons z zs =>
        rcases lt_trichotomy x y with hxy | hxy | hxy
        · rcases lt_trichotomy y z with hyz | hyz | hyz
          · simp [lexLe, lt_trans hxy hyz]
          · subst hyz; simp [lexLe, hxy]
          · simp [lexLe, hyz, not_lt_of_gt hyz] at hbc
        · subst hxy
          rcases lt_trichotomy x z with hyz | hyz | hyz
          · simp [lexLe, hyz]
          · subst hyz
            simp only [lexLe, lt_irrefl, if_false] at hab hbc ⊢
            exact ih ys zs hab hbc
          · simp [lexLe, hyz, not_lt_of_gt hyz] at hbc
        · simp [lexLe, hxy, not_lt_of_gt hxy] at hab

theorem lexLe_antisymm (a : List Char) :
    ∀ b, lexLe a b = true → lexLe b a = true → a = b := by
  induction a with
  | nil =>
    intro b _ hba
    cases b with
    | nil => rfl
    | cons y ys => simp [lexLe] at hba
  | cons x xs ih =>
    intro b hab hba
    cases b with
    | nil => simp [lexLe] at hab
    | cons y ys =>
      rcases lt_trichotomy x y with hxy | hxy | hxy
      · simp [lexLe, hxy, not_lt_of_gt hxy] at hba
      · subst hxy
        simp only [lexLe, lt_irrefl, if_false] at hab hba
        rw [ih ys hab hba]
      · simp [lexLe, hxy, not_lt_of_gt hxy] at hab

theorem string_data_inj (a b : String) (h : a.data = b.data) : a = b := by
  cases a; cases b; exact congrArg String.mk h

theorem strLe_total (a b : String) : strLe a b = true ∨ strLe b a = true :=
  lexLe_total a.data b.data

theorem strLe_trans (a b c : String) (h1 : strLe a b = true) (h2 : strLe b c = true) :
    strLe a c = true :=
  lexLe_trans a.data b.data c.data h1 h2

theorem strLe_antisymm (a b : String) (h1 : strLe a b = true) (h2 : strLe b a = true) :
    a = b :=
  string_data_inj a b (lexLe_antisymm a.data b.data h1 h2)

theorem strLe_empty_left (s : String) : strLe "" s = true := rfl

/-! ### Canonicalization: sortedness and absence of empty entries -/

theorem dropLeadingEmpties_eq (l : List String) :
    dropLeadingEmpties l = l.dropWhile (fun a => a == "") := by
  induction l with
  | nil => rfl
  | cons a t ih =>
    by_cases h : a = "" <;> simp [dropLeadingEmpties, List.dropWhile_cons, h, ih]

theorem sortStrings_sorted (l : List String) :
    List.Sorted (fun a b => strLe a b = true) (sortStrings l) := by
  haveI : IsTotal String (fun a b => strLe a b = true) := ⟨strLe_total⟩
  haveI : IsTrans String (fun a b => strLe a b = true) := ⟨strLe_trans⟩
  exact List.sorted_insertionSort _ l

theorem sorted_dropWhile_no_empty (l : List String)
    (hs : List.Sorted (fun a b => strLe a b = true) l) :
    "" ∉ l.dropWhile (fun a => a == "") := by
  induction l with
  | nil => simp
  | cons a t ih =>
    by_cases h : a = ""
    · subst h
      rw [List.dropWhile_cons]
      simpa using ih hs.of_cons
    · rw [List.dropWhile_cons]
      have hne : (a == "") = false := by simpa using h
      rw [hne]
      simp only [Bool.false_eq_true, if_false]
      intro hmem
      rcases List.mem_cons.mp hmem with heq | hmem
      · exact h heq.symm
      · have hax : strLe a "" = true := (List.sorted_cons.mp hs).1 "" hmem
        exact h (strLe_antisymm a "" hax (strLe_empty_left a))

theorem canonicalize_sorted (abs readlink : String → Option String) (args : List String) :
    List.Sorted (fun a b => strLe a b = true) (canonicalize abs readlink args) := by
  unfold canonicalize
  rw [dropLeadingEmpties_eq]
  exact List.Pairwise.sublist (List.dropWhile_sublist _) (sortStrings_sorted _)

theorem canonicalize_no_empty (abs readlink : String → Option String) (args : List String) :
    "" ∉ canonicalize abs readlink args := by
  unfold canonicalize
  rw [dropLeadingEmpties_eq]
  exact sorted_dropWhile_no_empty _ (sortStrings_sorted _)

/-- C2, corrected.  The canonicalized list handed to indexing is sorted in
the lexicographic string order and contains no empty entries (every failed
resolution is dropped), for every resolution environment and every input
list; duplicates, however, are preserved (see the counterexample). -/
theorem c2_canonical_sorted_no_empty (abs readlink : String → Option String)
    (args : List String) :
    List.Sorted (fun a b => strLe a b = true) (canonicalize abs readlink args) ∧
    "" ∉ canonicalize abs readlink args :=
  ⟨canonicalize_sorted abs readlink args, canonicalize_no_empty abs readlink args⟩

/-- C2 counterexample: the claim asserts the canonicalized list contains no
duplicate entries, but `sort.Strings` plus the empty-drop loop never
deduplicates: two identical arguments survive as two identical entries. -/
theorem c2_counterexample :
    canonicalize (fun s => some s) (fun _ => none) ["/a", "/a"] = ["/a", "/a"] ∧
    ¬ (canonicalize (fun s => some s) (fun _ => none) ["/a", "/a"]).Nodup := by
  refine ⟨rfl, ?_⟩
  intro h
  rw [show canonicalize (fun s => some s) (fun _ => none) ["/a", "/a"] = ["/a", "/a"]
      from rfl] at h
  simp at h

/-- C7, confirmed.  `resolveArg` applies `Readlink` exactly once: whenever
the absolute form `a` of the argument reads as a symlink to a nonempty
target `b`, the result is `b` itself — for every `readlink` environment,
in particular ones where `b` is again a symlink — and when `a` is not a
symlink the result is the absolute form `a`. -/
theorem c7_single_symlink_resolution (abs readlink : String → Option String)
    (arg a : String) (ha : abs arg = some a) :
    (∀ b, readlink a = some b → b ≠ "" → resolveArg abs readlink arg = b) ∧
    (readlink a = none → resolveArg abs readlink arg = a) := by
  constructor
  · intro b hb hne
    simp [resolveArg, ha, hb, hne]
  · intro hb
    simp [resolveArg, ha, hb]

/-- Witness for C7 at a concrete two-link chain `/A → /B → /C`: the result
is `/B`, never `/C`, and the non-symlink `/D` stays as itself. -/
theorem c7_witness :
    resolveArg (fun s => some s)
      (fun s => if s = "/A" then some "/B" else if s = "/B" then some "/C" else none)
      "/A" = "/B" ∧
    resolveArg (fun s => some s)
      (fun s => if s = "/A" then some "/B" else if s = "/B" then some "/C" else none)
      "/D" = "/D" :=
  ⟨(c7_single_symlink_resolution _ _ "/A" "/A" rfl).1 "/B" (by decide) (by decide),
   (c7_single_symlink_resolution _ _ "/D" "/D" rfl).2 (by decide)⟩

end Cindex

namespace Cindex

/-! ### Encoding detection -/

theorem probeLoop_all_invalid (f : FileModel) (hseek : f.seekFails = false) :
    ∀ (encodings : List Encoding) (found : Option Encoding),
      (∀ e ∈ encodings, e.validates f.bytes = false) →
      probeLoop f encodings found = .ok found := by
  intro encodings
  induction encodings with
  | nil => intro found _; rfl
  | cons e rest ih =>
    intro found hall
    have he : e.validates f.bytes = false := hall e (List.mem_cons_self e rest)
    simp only [probeLoop, he, hseek, Bool.false_eq_true, if_false]
    exact ih found fun x hx => hall x (List.mem_cons_of_mem e hx)

theorem probeLoop_no_seek_fail (f : FileModel) (hseek : f.seekFails = false) :
    ∀ (encodings : List Encoding) (found : Option Encoding),
      ∃ r, probeLoop f encodings found = .ok r := by
  intro encodings
  induction encodings with
  | nil => intro found; exact ⟨found, rfl⟩
  | cons e rest ih =>
    intro found
    simp only [probeLoop, hseek, Bool.false_eq_true, if_false]
    exact ih _

/-- C4, confirmed.  The detector is last-match-wins over the ordered
candidate list: with candidates `[e₁, e₂]` both validating, the content
handed to the index is `e₂`'s decoding; with only `[e₁]` validating it is
`e₁`'s decoding; and when no candidate validates — in particular for the
empty candidate list — the raw bytes pass through unchanged. -/
theorem c4_last_match_wins (f : FileModel) (e₁ e₂ : Encoding)
    (hopen : f.openFails = false) (hseek : f.seekFails = false) :
    (e₁.validates f.bytes = true → e₂.validates f.bytes = true →
      (openEncoded f [e₁, e₂]).2 = .ok (e₂.decode f.bytes)) ∧
    (e₁.validates f.bytes = true →
      (openEncoded f [e₁]).2 = .ok (e₁.decode f.bytes)) ∧
    (∀ encodings : List Encoding, (∀ e ∈ encodings, e.validates f.bytes = false) →
      (openEncoded f encodings).2 = .ok f.bytes) := by
  refine ⟨?_, ?_, ?_⟩
  · intro h1 h2
    simp [openEncoded, probeLoop, hopen, hseek, h1, h2]
  · intro h1
    simp [openEncoded, probeLoop, hopen, hseek, h1]
  · intro encodings hall
    simp [openEncoded, hopen, probeLoop_all_invalid f hseek encodings none hall]

/-- Witness for C4 at concrete data: two always-validating candidates on
the byte stream `[9]` — the second one's decoding wins; a single
validating candidate wins alone; a never-validating candidate list passes
the bytes through unchanged. -/
theorem c4_witness :
    (openEncoded ⟨false, false, [9]⟩
      [⟨fun _ => true, fun l => 0 :: l⟩, ⟨fun _ => true, fun l => 1 :: l⟩]).2 =
        .ok [1, 9] ∧
    (openEncoded ⟨false, false, [9]⟩ [⟨fun _ => true, fun l => 0 :: l⟩]).2 =
        .ok [0, 9] ∧
    (openEncoded ⟨false, false, [9]⟩ [⟨fun _ => false, fun l => 0 :: l⟩]).2 =
        .ok [9] := by
  refine ⟨?_, ?_, ?_⟩
  · exact (c4_last_match_wins ⟨false, false, [9]⟩
      ⟨fun _ => true, fun l => 0 :: l⟩ ⟨fun _ => true, fun l => 1 :: l⟩ rfl rfl).1 rfl rfl
  · exact (c4_last_match_wins ⟨false, false, [9]⟩
      ⟨fun _ => true, fun l => 0 :: l⟩ ⟨fun _ => true, fun l => 1 :: l⟩ rfl rfl).2.1 rfl
  · exact (c4_last_match_wins ⟨false, false, [9]⟩
      ⟨fun _ => true, fun l => 0 :: l⟩ ⟨fun _ => true, fun l => 1 :: l⟩ rfl rfl).2.2
      [⟨fun _ => false, fun l => 0 :: l⟩] (by intro e he; simp at he; rw [he])

/-- C9 counterexample: on the rewind-failure exit path the file handle is
still open when `openEncoded` returns its error, so the stream opened for
this discovered file is never released — refuting "closed on every exit
path". -/
theorem c9_counterexample :
    (processFile ⟨false, true, []⟩ [⟨fun _ => true, fun l => l⟩]).1 = HState.opened ∧
    (processFile ⟨false, true, []⟩ [⟨fun _ => true, fun l => l⟩]).2 = true := ⟨rfl, rfl⟩

/-- C9, corrected.  The handle opened for a discovered file leaks (is left
open) exactly on the rewind-failure exit path — open succeeded, a seek
failed, and at least one candidate encoding forced a probe; on every other
exit path it is released: closed after a successful add or raw
pass-through, and never acquired when the open itself fails. -/
theorem c9_handle_release (f : FileModel) (encodings : List Encoding) :
    ((processFile f encodings).1 = HState.opened ↔
      f.openFails = false ∧ f.seekFails = true ∧ encodings ≠ []) ∧
    (f.openFails = true → (processFile f encodings).1 = HState.neverOpened) := by
  constructor
  · cases hopen : f.openFails with
    | true =>
      simp [processFile, openEncoded, hopen]
    | false =>
      cases hseek : f.seekFails with
      | true =>
        cases encodings with
        | nil => simp [processFile, openEncoded, probeLoop, hopen]
        | cons e rest =>
          simp [processFile, openEncoded, probeLoop, hopen, hseek]
      | false =>
        obtain ⟨r, hr⟩ := probeLoop_no_seek_fail f hseek encodings none
        cases r with
        | none => simp [processFile, openEncoded, hopen, hseek, hr]
        | some e => simp [processFile, openEncoded, hopen, hseek, hr]
  · intro hopen
    simp [processFile, openEncoded, hopen]

/-- Witness for C9: with a failing open no handle is ever acquired, and at
the concrete leak input the characterization confirms the leaked state. -/
theorem c9_handle_release_witness :
    (processFile ⟨true, false, []⟩ []).1 = HState.neverOpened ∧
    (processFile ⟨false, true, [3]⟩ [⟨fun _ => true, fun l => l⟩]).1 = HState.opened :=
  ⟨(c9_handle_release ⟨true, false, []⟩ []).2 rfl,
   (c9_handle_release ⟨false, true, [3]⟩ [⟨fun _ => true, fun l => l⟩]).1.mpr
     ⟨rfl, rfl, by simp⟩⟩

end Cindex


namespace Cindex

/-! ### Walker helper lemmas -/

theorem takeWhile_append_of_all {p : Char → Bool} (l l' : List Char)
    (h : ∀ c ∈ l, p c = true) :
    (l ++ l').takeWhile p = l ++ l'.takeWhile p := by
  induction l with
  | nil => simp
  | cons a t ih =>
    have ha := h a (List.mem_cons_self a t)
    simp only [List.cons_append, List.takeWhile_cons, ha, if_true]
    rw [ih fun c hc => h c (List.mem_cons_of_mem a hc)]

theorem splitElem_append (p n : String) (h : '/' ∉ n.data) :
    splitElem (p ++ "/" ++ n) = n := by
  unfold splitElem
  have hd : (p ++ "/" ++ n).data = (p.data ++ ['/']) ++ n.data := by
    rw [String.data_append, String.data_append]
  rw [hd, List.reverse_append, List.reverse_append]
  have hall : ∀ c ∈ n.data.reverse, (c != '/') = true := by
    intro c hc
    have hm : c ∈ n.data := List.mem_reverse.mp hc
    have hne : c ≠ '/' := fun he => h (he ▸ hm)
    simpa using hne
  rw [takeWhile_append_of_all _ _ hall]
  simp only [List.reverse_singleton, List.singleton_append, List.takeWhile_cons]
  simp

theorem walkFn_ext (encodings : List Encoding) (target : String) (st : List Eff)
    (path : String) (info : Option NodeInfo) (err : Bool) (fm : FileModel)
    (out : List Eff × WalkSig)
    (h : walkFn encodings target st path info err fm = .ok out) :
    ∃ d, out.1 = st ++ d ∧ ∀ x ∈ d, walkEff target x := by
  unfold walkFn at h
  split at h
  · split at h
    · exact absurd h (by simp)
    · split at h
      · cases h; exact ⟨[], by simp⟩
      · cases h; exact ⟨[], by simp⟩
  next hskip =>
    split at h
    · cases h
      refine ⟨[Eff.logLine (path ++ ": walk error")], by simp, ?_⟩
      intro x hx
      rw [List.mem_singleton] at hx
      exact Or.inl ⟨_, hx⟩
    · split at h
      · cases h; exact ⟨[], by simp⟩
      · split at h
        · split at h
          next fst heq => cases h; exact ⟨[], by simp⟩
          next fst content heq =>
            cases h
            refine ⟨[Eff.add target path content], by simp, ?_⟩
            intro x hx
            rw [List.mem_singleton] at hx
            refine Or.inr ⟨path, content, hx, ?_⟩
            simpa using hskip
        · cases h; exact ⟨[], by simp⟩

mutual

theorem goWalk_ext (encodings : List Encoding) (target : String) (path : String)
    (e : Entry) (st : List Eff) (out : List Eff × WalkSig)
    (h : goWalk encodings target path e st = .ok out) :
    ∃ d, out.1 = st ++ d ∧ ∀ x ∈ d, walkEff target x := by
  cases e with
  | file n regular fm =>
    simp only [goWalk] at h
    exact walkFn_ext _ _ _ _ _ _ _ _ h
  | statErr n =>
    simp only [goWalk] at h
    cases h
    exact ⟨[], by simp⟩
  | dir n readErr children =>
    simp only [goWalk] at h
    split at h
    · exact absurd h (by simp)
    next st₁ r₁ hw =>
      split at h
      · cases h
        exact walkFn_ext _ _ _ _ _ _ _ _ hw
      · obtain ⟨d₁, hd₁, hall₁⟩ := walkFn_ext _ _ _ _ _ _ _ _ hw
        obtain ⟨d₂, hd₂, hall₂⟩ := goWalkChildren_ext encodings target path children st₁ out h
        refine ⟨d₁ ++ d₂, ?_, ?_⟩
        · rw [hd₂, show st₁ = st ++ d₁ from hd₁, List.append_assoc]
        · intro x hx
          rcases List.mem_append.mp hx with hx | hx
          · exact hall₁ x hx
          · exact hall₂ x hx

theorem goWalkChildren_ext (encodings : List Encoding) (target : String)
    (dirPath : String) (cs : List Entry) (st : List Eff) (out : List Eff × WalkSig)
    (h : goWalkChildren encodings target dirPath cs st = .ok out) :
    ∃ d, out.1 = st ++ d ∧ ∀ x ∈ d, walkEff target x := by
  cases cs with
  | nil =>
    simp only [goWalkChildren] at h
    cases h
    exact ⟨[], by simp⟩
  | cons c rest =>
    cases c with
    | statErr name =>
      simp only [goWalkChildren] at h
      split at h
      · exact absurd h (by simp)
      next st₁ r hw =>
        split at h
        next hr =>
          subst hr
          cases h
          exact walkFn_ext _ _ _ _ _ _ _ _ hw
        next hr =>
          obtain ⟨d₁, hd₁, hall₁⟩ := walkFn_ext _ _ _ _ _ _ _ _ hw
          obtain ⟨d₂, hd₂, hall₂⟩ := goWalkChildren_ext encodings target dirPath rest st₁ out h
          refine ⟨d₁ ++ d₂, ?_, ?_⟩
          · rw [hd₂, show st₁ = st ++ d₁ from hd₁, List.append_assoc]
          · intro x hx
            rcases List.mem_append.mp hx with hx | hx
            · exact hall₁ x hx
            · exact hall₂ x hx
    | file name regular fm =>
      simp only [goWalkChildren] at h
      split at h
      · exact absurd h (by simp)
      next st₁ r hw =>
        split at h
        · cases h
          exact goWalk_ext _ _ _ _ _ _ hw
        · obtain ⟨d₁, hd₁, hall₁⟩ := goWalk_ext _ _ _ _ _ _ hw
          obtain ⟨d₂, hd₂, hall₂⟩ := goWalkChildren_ext encodings target dirPath rest st₁ out h
          refine ⟨d₁ ++ d₂, ?_, ?_⟩
          · rw [hd₂, show st₁ = st ++ d₁ from hd₁, List.append_assoc]
          · intro x hx
            rcases List.mem_append.mp hx with hx | hx
            · exact hall₁ x hx
            · exact hall₂ x hx
    | dir name readErr children =>
      simp only [goWalkChildren] at h
      split at h
      · exact absurd h (by simp)
      next st₁ r hw =>
        split at h
        · cases h
          exact goWalk_ext _ _ _ _ _ _ hw
        · obtain ⟨d₁, hd₁, hall₁⟩ := goWalk_ext _ _ _ _ _ _ hw
          obtain ⟨d₂, hd₂, hall₂⟩ := goWalkChildren_ext encodings target dirPath rest st₁ out h
          refine ⟨d₁ ++ d₂, ?_, ?_⟩
          · rw [hd₂, show st₁ = st ++ d₁ from hd₁, List.append_assoc]
          · intro x hx
            rcases List.mem_append.mp hx with hx | hx
            · exact hall₁ x hx
            · exact hall₂ x hx

end

theorem goWalkTop_ext (encodings : List Encoding) (target : String) (rootPath : String)
    (root : Entry) (st : List Eff) (tr : List Eff)
    (h : goWalkTop encodings target rootPath root st = .ok tr) :
    ∃ d, tr = st ++ d ∧ ∀ x ∈ d, walkEff target x := by
  cases root with
  | statErr n =>
    simp only [goWalkTop] at h
    split at h
    · exact absurd h (by simp)
    next st₁ r hw =>
      cases h
      obtain ⟨d, hd, hall⟩ := walkFn_ext _ _ _ _ _ _ _ _ hw
      exact ⟨d, hd, hall⟩
  | file n regular fm =>
    simp only [goWalkTop] at h
    split at h
    · exact absurd h (by simp)
    next st₁ r hw =>
      cases h
      obtain ⟨d, hd, hall⟩ := goWalk_ext _ _ _ _ _ _ hw
      exact ⟨d, hd, hall⟩
  | dir n readErr children =>
    simp only [goWalkTop] at h
    split at h
    · exact absurd h (by simp)
    next st₁ r hw =>
      cases h
      obtain ⟨d, hd, hall⟩ := goWalk_ext _ _ _ _ _ _ hw
      exact ⟨d, hd, hall⟩

theorem runWalks_ext (encodings : List Encoding) (target : String)
    (roots : List (String × Entry)) : ∀ (st tr : List Eff),
    runWalks encodings target roots st = .ok tr →
    ∃ d, tr = st ++ d ∧ ∀ x ∈ d, walkEff target x := by
  induction roots with
  | nil =>
    intro st tr h
    simp only [runWalks] at h
    cases h
    exact ⟨[], by simp⟩
  | cons r rest ih =>
    intro st tr h
    simp only [runWalks] at h
    split at h
    · exact absurd h (by simp)
    next st₁ hw =>
      obtain ⟨d₁, hd₁, hall₁⟩ := goWalkTop_ext _ _ _ _ _ _ hw
      obtain ⟨d₂, hd₂, hall₂⟩ := ih st₁ tr h
      refine ⟨[Eff.logLine ("index " ++ r.1)] ++ d₁ ++ d₂, ?_, ?_⟩
      · rw [hd₂, hd₁]
        simp [List.append_assoc]
      · intro x hx
        rcases List.mem_append.mp hx with hx | hx
        · rcases List.mem_append.mp hx with hx | hx
          · rw [List.mem_singleton] at hx
            exact Or.inl ⟨_, hx⟩
          · exact hall₁ x hx
        · exact hall₂ x hx

end Cindex


namespace Cindex

/-! ### Skip rules and crash behavior -/

theorem goWalk_skip (encodings : List Encoding) (target : String) (path : String)
    (e : Entry) (st : List Eff) (h : skipName (splitElem path) = true) :
    ∃ r, goWalk encodings target path e st = .ok (st, r) := by
  cases e with
  | file n regular fm =>
    refine ⟨.ok, ?_⟩
    simp [goWalk, walkFn, h]
  | statErr n =>
    exact ⟨.ok, rfl⟩
  | dir n readErr children =>
    refine ⟨.skipDir, ?_⟩
    simp [goWalk, walkFn, h]

theorem walkFn_err_nonskip (encodings : List Encoding) (target : String) (st : List Eff)
    (path : String) (fm : FileModel) (h : skipName (splitElem path) = false) :
    walkFn encodings target st path none true fm =
      .ok (st ++ [Eff.logLine (path ++ ": walk error")], .ok) := by
  simp [walkFn, h]

theorem walkFn_some_no_crash (encodings : List Encoding) (target : String) (st : List Eff)
    (path : String) (i : NodeInfo) (err : Bool) (fm : FileModel) :
    ∃ out, walkFn encodings target st path (some i) err fm = .ok out := by
  by_cases hskip : skipName (splitElem path) = true
  · by_cases hd : i.isDir = true
    · exact ⟨(st, .skipDir), by simp [walkFn, hskip, hd]⟩
    · exact ⟨(st, .ok), by simp [walkFn, hskip, hd]⟩
  · by_cases herr : err = true
    · exact ⟨(st ++ [.logLine (path ++ ": walk error")], .ok),
        by simp [walkFn, hskip, herr]⟩
    · by_cases hreg : i.regular = true
      · cases ho : openEncoded fm encodings with
        | mk hs res =>
          cases res with
          | error u =>
            cases u
            exact ⟨(st, .fatal), by simp [walkFn, hskip, herr, hreg, ho]⟩
          | ok content =>
            exact ⟨(st ++ [.add target path content], .ok),
              by simp [walkFn, hskip, herr, hreg, ho]⟩
      · exact ⟨(st, .ok), by simp [walkFn, hskip, herr, hreg]⟩

theorem all_ne_slash_not_mem (n : List Char) (h : n.all (fun c => c != '/') = true) :
    '/' ∉ n := by
  intro hm
  have := List.all_eq_true.mp h '/' hm
  simp at this

mutual

theorem goWalk_no_crash (encodings : List Encoding) (target : String) (path : String)
    (e : Entry) (st : List Eff) (hok : noBadErr e = true) :
    ∃ out, goWalk encodings target path e st = .ok out := by
  cases e with
  | file n regular fm =>
    simp only [goWalk]
    exact walkFn_some_no_crash _ _ _ _ _ _ _
  | statErr n =>
    exact ⟨(st, .ok), rfl⟩
  | dir n readErr children =>
    obtain ⟨⟨st₁, r₁⟩, hw⟩ :=
      walkFn_some_no_crash encodings target st path ⟨true, false⟩ readErr defaultFm
    simp only [goWalk, hw]
    by_cases hc : readErr = true ∨ r₁ ≠ .ok
    · rw [if_pos hc]
      exact ⟨_, rfl⟩
    · rw [if_neg hc]
      exact goWalkChildren_no_crash encodings target path children st₁
        (by simpa [noBadErr] using hok)

theorem goWalkChildren_no_crash (encodings : List Encoding) (target : String)
    (dirPath : String) (cs : List Entry) (st : List Eff)
    (hok : noBadErrList cs = true) :
    ∃ out, goWalkChildren encodings target dirPath cs st = .ok out := by
  cases cs with
  | nil => exact ⟨(st, .ok), rfl⟩
  | cons c rest =>
    have hc : noBadErr c = true ∧ noBadErrList rest = true := by
      simpa [noBadErrList, Bool.and_eq_true] using hok
    cases c with
    | statErr name =>
      have hname : skipName name = false ∧ name.data.all (fun c => c != '/') = true := by
        have hn := hc.1
        simp only [noBadErr, Bool.and_eq_true, Bool.not_eq_true'] at hn
        exact hn
      have hsplit : splitElem (dirPath ++ "/" ++ name) = name :=
        splitElem_append dirPath name (all_ne_slash_not_mem _ hname.2)
      have hwf := walkFn_err_nonskip encodings target st (dirPath ++ "/" ++ name) defaultFm
        (by rw [hsplit]; exact hname.1)
      simp only [goWalkChildren, hwf]
      rw [if_neg (show ¬ (WalkSig.ok = WalkSig.fatal) by simp)]
      exact goWalkChildren_no_crash encodings target dirPath rest _ hc.2
    | file name regular fm =>
      obtain ⟨⟨st₁, r⟩, hw⟩ := goWalk_no_crash encodings target
        (dirPath ++ "/" ++ (Entry.file name regular fm).nameOf)
        (Entry.file name regular fm) st hc.1
      simp only [goWalkChildren, hw]
      by_cases hr : r ≠ .ok ∧ ((Entry.file name regular fm).isDirE = false ∨ r ≠ .skipDir)
      · rw [if_pos hr]
        exact ⟨_, rfl⟩
      · rw [if_neg hr]
        exact goWalkChildren_no_crash encodings target dirPath rest st₁ hc.2
    | dir name readErr children =>
      obtain ⟨⟨st₁, r⟩, hw⟩ := goWalk_no_crash encodings target
        (dirPath ++ "/" ++ (Entry.dir name readErr children).nameOf)
        (Entry.dir name readErr children) st hc.1
      simp only [goWalkChildren, hw]
      by_cases hr : r ≠ .ok ∧ ((Entry.dir name readErr children).isDirE = false ∨ r ≠ .skipDir)
      · rw [if_pos hr]
        exact ⟨_, rfl⟩
      · rw [if_neg hr]
        exact goWalkChildren_no_crash encodings target dirPath rest st₁ hc.2

end

theorem goWalkTop_no_crash (encodings : List Encoding) (target : String)
    (rootPath : String) (root : Entry) (st : List Eff)
    (hok : rootErrOk rootPath root = true) :
    ∃ tr, goWalkTop encodings target rootPath root st = .ok tr := by
  cases root with
  | statErr n =>
    have hskip : skipName (splitElem rootPath) = false := by
      simpa [rootErrOk, Bool.not_eq_true'] using hok
    have hwf := walkFn_err_nonskip encodings target st rootPath defaultFm hskip
    simp only [goWalkTop, hwf]
    exact ⟨_, rfl⟩
  | file n regular fm =>
    obtain ⟨⟨st₁, r⟩, hw⟩ := goWalk_no_crash encodings target rootPath
      (Entry.file n regular fm) st (by simpa [rootErrOk] using hok)
    simp only [goWalkTop, hw]
    exact ⟨_, rfl⟩
  | dir n readErr children =>
    obtain ⟨⟨st₁, r⟩, hw⟩ := goWalk_no_crash encodings target rootPath
      (Entry.dir n readErr children) st (by simpa [rootErrOk] using hok)
    simp only [goWalkTop, hw]
    exact ⟨_, rfl⟩

theorem runWalks_no_crash (encodings : List Encoding) (target : String)
    (roots : List (String × Entry)) : ∀ st : List Eff,
    (∀ r ∈ roots, rootErrOk r.1 r.2 = true) →
    ∃ tr, runWalks encodings target roots st = .ok tr := by
  induction roots with
  | nil => exact fun st _ => ⟨st, rfl⟩
  | cons r rest ih =>
    intro st hall
    obtain ⟨st₁, hw⟩ := goWalkTop_no_crash encodings target r.1 r.2
      (st ++ [.logLine ("index " ++ r.1)]) (hall r (List.mem_cons_self r rest))
    simp only [runWalks, hw]
    exact ih st₁ fun x hx => hall x (List.mem_cons_of_mem r hx)

end Cindex

namespace Cindex

/-- C5, confirmed.  First conjunct: an entry whose base name matches a skip
rule (leading `.`, `#`, `~`, or trailing `~`) contributes nothing to the
walk: its walk returns with the trace unchanged — for a directory this is
the `SkipDir` prune, so nothing below it (for example `foo.txt` inside
`.git`) is ever visited, and a matching file such as `foo~` is omitted.
Second conjunct: every `Add` handed to the index during the per-root walks
carries a path whose base name matches no skip rule. -/
theorem c5_skip_rules :
    (∀ (encodings : List Encoding) (target path : String) (e : Entry) (st : List Eff),
      skipName (splitElem path) = true →
      ∃ r, goWalk encodings target path e st = .ok (st, r)) ∧
    (∀ (encodings : List Encoding) (target : String) (roots : List (String × Entry))
        (st tr : List Eff),
      runWalks encodings target roots st = .ok tr →
      ∀ t p c, Eff.add t p c ∈ tr → Eff.add t p c ∈ st ∨ skipName (splitElem p) = false) := by
  constructor
  · intro encodings target path e st h
    exact goWalk_skip encodings target path e st h
  · intro encodings target roots st tr h t p c hmem
    obtain ⟨d, hd, hall⟩ := runWalks_ext encodings target roots st tr h
    subst hd
    rcases List.mem_append.mp hmem with hmem | hmem
    · exact Or.inl hmem
    · rcases hall _ hmem with ⟨s, hs⟩ | ⟨p', c', he, hp'⟩
      · cases hs
      · right
        injection he with h1 h2 h3
        subst h2
        exact hp'

/-- Witness for C5: walking the skip-named directory `.git` containing
`foo.txt` leaves the trace unchanged — nothing underneath is yielded. -/
theorem c5_skip_rules_witness :
    ∃ r, goWalk [] "T" "/p/.git"
      (Entry.dir ".git" false [Entry.file "foo.txt" true ⟨false, false, [1]⟩]) [] =
      .ok ([], r) :=
  c5_skip_rules.1 [] "T" "/p/.git"
    (Entry.dir ".git" false [Entry.file "foo.txt" true ⟨false, false, [1]⟩]) [] (by rfl)

/-- C8 counterexample: an entry whose lstat fails and whose base name
matches a skip rule crashes the run — the skip check precedes the error
check and calls `IsDir` on the nil file info — refuting "the run never
crashes because of a per-entry traversal error". -/
theorem c8_counterexample :
    runWalks [] "T" [("/r/.x", Entry.statErr ".x")] [] = Except.error () := rfl

/-- C8, corrected.  A traversal error on an entry whose base name matches
no skip rule is logged and skips only that entry (first conjunct), and a
run whose errored entries all have non-skip-matching, slash-free base
names never crashes (second conjunct); but an errored entry with a
skip-matching base name dereferences the nil file info and panics (see the
counterexample). -/
theorem c8_traversal_errors :
    (∀ (encodings : List Encoding) (target : String) (st : List Eff) (path : String)
        (fm : FileModel),
      skipName (splitElem path) = false →
      walkFn encodings target st path none true fm =
        .ok (st ++ [Eff.logLine (path ++ ": walk error")], .ok)) ∧
    (∀ (encodings : List Encoding) (target : String) (roots : List (String × Entry))
        (st : List Eff),
      (∀ r ∈ roots, rootErrOk r.1 r.2 = true) →
      ∃ tr, runWalks encodings target roots st = .ok tr) := by
  constructor
  · intro encodings target st path fm h
    exact walkFn_err_nonskip encodings target st path fm h
  · intro encodings target roots st hall
    exact runWalks_no_crash encodings target roots st hall

/-- Witness for C8: a root with a failing lstat but a non-skip-matching
base name is logged, skipped, and the run completes without crashing. -/
theorem c8_traversal_errors_witness :
    walkFn [] "T" [] "/r/x" none true ⟨false, false, []⟩ =
      .ok ([Eff.logLine "/r/x: walk error"], .ok) ∧
    ∃ tr, runWalks [] "T" [("/r/x", Entry.statErr "x")] [] = .ok tr :=
  ⟨c8_traversal_errors.1 [] "T" [] "/r/x" ⟨false, false, []⟩ (by rfl),
   c8_traversal_errors.2 [] "T" [("/r/x", Entry.statErr "x")] [] (by decide)⟩

/-- C3 counterexample: the first root contains a file whose open fails;
the claim says the failure is logged and the whole run aborts with no
further roots indexed.  Instead the computed trace contains no log of the
failure, and the second root's file is still added. -/
theorem c3_counterexample :
    runWalks [] "T"
      [("/r1", Entry.dir "r1" false [Entry.file "bad" true ⟨true, false, []⟩]),
       ("/r2", Entry.dir "r2" false [Entry.file "good" true ⟨false, false, [1, 2]⟩])] [] =
      .ok [Eff.logLine "index /r1", Eff.logLine "index /r2",
           Eff.add "T" "/r2/good" [1, 2]] ∧
    Eff.add "T" "/r2/good" [1, 2] ∈
      [Eff.logLine "index /r1", Eff.logLine "index /r2", Eff.add "T" "/r2/good" [1, 2]] :=
  ⟨rfl, by decide⟩

/-- C3, corrected.  An open or rewind failure aborts only the current
root's walk: (1) once processing a child ends in the fatal error, the
remaining siblings are never visited; (2) the per-root loop continues with
the remaining roots whatever a root's walk produced (the walk's error is
discarded, unlogged); (3) a fatal walk result at a directory root is
swallowed by the Walk wrapper; (4) the trace accumulated by earlier
successful adds is retained, never rolled back. -/
theorem c3_fatal_add :
    (∀ (encodings : List Encoding) (target dirPath : String) (c : Entry)
        (cs : List Entry) (st st₁ : List Eff),
      goWalkChildren encodings target dirPath [c] st = .ok (st₁, .fatal) →
      goWalkChildren encodings target dirPath (c :: cs) st = .ok (st₁, .fatal)) ∧
    (∀ (encodings : List Encoding) (target : String) (r : String × Entry)
        (rest : List (String × Entry)) (st st₁ : List Eff),
      goWalkTop encodings target r.1 r.2 (st ++ [Eff.logLine ("index " ++ r.1)]) = .ok st₁ →
      runWalks encodings target (r :: rest) st = runWalks encodings target rest st₁) ∧
    (∀ (encodings : List Encoding) (target rootPath name : String) (readErr : Bool)
        (children : List Entry) (st tr : List Eff),
      goWalk encodings target rootPath (Entry.dir name readErr children) st =
        .ok (tr, .fatal) →
      goWalkTop encodings target rootPath (Entry.dir name readErr children) st = .ok tr) ∧
    (∀ (encodings : List Encoding) (target : String) (roots : List (String × Entry))
        (st tr : List Eff),
      runWalks encodings target roots st = .ok tr → ∃ d, tr = st ++ d) := by
  refine ⟨?_, ?_, ?_, ?_⟩
  · intro encodings target dirPath c cs st st₁ h
    cases c with
    | statErr name =>
      simp only [goWalkChildren] at h ⊢
      cases hw : walkFn encodings target st (dirPath ++ "/" ++ name) none true defaultFm with
      | error u => rw [hw] at h; exact absurd h (by simp)
      | ok o =>
        obtain ⟨st', r⟩ := o
        simp only [hw] at h ⊢
        by_cases hr : r = .fatal
        · rw [if_pos hr] at h ⊢
          exact h
        · rw [if_neg hr] at h
          have h2 : (Except.ok (st', WalkSig.ok) : Except Unit (List Eff × WalkSig)) =
              .ok (st₁, .fatal) := h
          injection h2 with h3
          exact absurd (congrArg Prod.snd h3) (by simp)
    | file name regular fm =>
      simp only [goWalkChildren] at h ⊢
      cases hw : goWalk encodings target
          (dirPath ++ "/" ++ (Entry.file name regular fm).nameOf)
          (Entry.file name regular fm) st with
      | error u => rw [hw] at h; exact absurd h (by simp)
      | ok o =>
        obtain ⟨st', r⟩ := o
        simp only [hw] at h ⊢
        by_cases hr : r ≠ .ok ∧ ((Entry.file name regular fm).isDirE = false ∨ r ≠ .skipDir)
        · rw [if_pos hr] at h ⊢
          exact h
        · rw [if_neg hr] at h
          have h2 : (Except.ok (st', WalkSig.ok) : Except Unit (List Eff × WalkSig)) =
              .ok (st₁, .fatal) := h
          injection h2 with h3
          exact absurd (congrArg Prod.snd h3) (by simp)
    | dir name readErr children =>
      simp only [goWalkChildren] at h ⊢
      cases hw : goWalk encodings target
          (dirPath ++ "/" ++ (Entry.dir name readErr children).nameOf)
          (Entry.dir name readErr children) st with
      | error u => rw [hw] at h; exact absurd h (by simp)
      | ok o =>
        obtain ⟨st', r⟩ := o
        simp only [hw] at h ⊢
        by_cases hr : r ≠ .ok ∧ ((Entry.dir name readErr children).isDirE = false ∨ r ≠ .skipDir)
        · rw [if_pos hr] at h ⊢
          exact h
        · rw [if_neg hr] at h
          have h2 : (Except.ok (st', WalkSig.ok) : Except Unit (List Eff × WalkSig)) =
              .ok (st₁, .fatal) := h
          injection h2 with h3
          exact absurd (congrArg Prod.snd h3) (by simp)
  · intro encodings target r rest st st₁ h
    simp only [runWalks, h]
  · intro encodings target rootPath name readErr children st tr h
    simp only [goWalkTop, h]
  · intro encodings target roots st tr h
    obtain ⟨d, hd, _⟩ := runWalks_ext encodings target roots st tr h
    exact ⟨d, hd⟩

/-- Witness for C3 at the counterexample's failing root: the directory
walk ends fatally, the Walk wrapper discards the error keeping the trace,
and the loop moves on to the remaining roots. -/
theorem c3_fatal_add_witness :
    goWalkTop [] "T" "/r1" (Entry.dir "r1" false [Entry.file "bad" true ⟨true, false, []⟩])
      [] = .ok [] ∧
    goWalkChildren [] "T" "/r1"
      [Entry.file "bad" true ⟨true, false, []⟩, Entry.file "later" true ⟨false, false, [7]⟩]
      [] = .ok ([], .fatal) :=
  ⟨c3_fatal_add.2.2.1 [] "T" "/r1" "r1" false [Entry.file "bad" true ⟨true, false, []⟩] [] []
     (by rfl),
   c3_fatal_add.1 [] "T" "/r1" (Entry.file "bad" true ⟨true, false, []⟩)
     [Entry.file "later" true ⟨false, false, [7]⟩] [] [] (by rfl)⟩

end Cindex

namespace Cindex

/-! ### Structure of a successful run's trace -/

theorem ne_self_append_tilde (s : String) : s ≠ s ++ "~" := by
  intro h
  have h2 := congrArg String.length h
  rw [String.length_append] at h2
  have h3 : ("~" : String).length = 1 := rfl
  omega

theorem ne_self_append_two_tildes (s : String) : s ≠ s ++ "~" ++ "~" := by
  intro h
  have h2 := congrArg String.length h
  rw [String.length_append, String.length_append] at h2
  have h3 : ("~" : String).length = 1 := rfl
  omega

theorem resolveFailLogs_log (abs : String → Option String) (args : List String) :
    ∀ e ∈ resolveFailLogs abs args, ∃ t, e = Eff.logLine t := by
  intro e he
  rw [resolveFailLogs, List.mem_filterMap] at he
  obtain ⟨a, _, ha⟩ := he
  split at ha
  · cases ha
    exact ⟨_, rfl⟩
  · cases ha

theorem main_ok_structure (env : Env) (cfg : Config) (encodings : List Encoding)
    (tr : List Eff) (hl : cfg.listFlag = false)
    (hra : ¬ (cfg.resetFlag = true ∧ cfg.args = []))
    (hp : parseEncodings env.getEnc cfg.encodingsFlag = .ok encodings)
    (hok : main env cfg = .ok tr) :
    ∃ d,
      (∀ x ∈ d, walkEff
        (if cfg.resetFlag = true ∨ env.indexExists = false then env.indexFile
         else env.indexFile ++ "~") x) ∧
      tr =
        resolveFailLogs env.abs (if cfg.args = [] then env.knownPaths else cfg.args) ++
        [Eff.create (if cfg.resetFlag = true ∨ env.indexExists = false then env.indexFile
            else env.indexFile ++ "~"),
         Eff.setVerbose cfg.verboseFlag,
         Eff.addPaths (if cfg.resetFlag = true ∨ env.indexExists = false then env.indexFile
            else env.indexFile ++ "~")
           (canonicalize env.abs env.readlink
             (if cfg.args = [] then env.knownPaths else cfg.args))] ++
        d ++
        [Eff.logLine "flush index",
         Eff.flush (if cfg.resetFlag = true ∨ env.indexExists = false then env.indexFile
            else env.indexFile ++ "~")] ++
        (if cfg.resetFlag = true ∨ env.indexExists = false then []
         else [Eff.logLine ("merge " ++ env.indexFile ++ " " ++ (env.indexFile ++ "~")),
               Eff.merge (env.indexFile ++ "~" ++ "~") env.indexFile (env.indexFile ++ "~"),
               Eff.remove (env.indexFile ++ "~"),
               Eff.rename (env.indexFile ++ "~" ++ "~") env.indexFile]) ++
        [Eff.logLine "done"] := by
  by_cases hreset : cfg.resetFlag = true ∨ env.indexExists = false
  · simp only [main, hl, Bool.false_eq_true, if_false, if_neg hra, hp, if_pos hreset] at hok
    split at hok
    · exact absurd hok (by simp)
    next st₁ heq =>
      obtain ⟨d, hd, hall⟩ := runWalks_ext _ _ _ _ _ heq
      refine ⟨d, ?_, ?_⟩
      · rw [if_pos hreset]
        exact hall
      · injection hok with hok
        rw [← hok, hd]
        simp [if_pos hreset, List.append_assoc]
  · simp only [main, hl, Bool.false_eq_true, if_false, if_neg hra, hp, if_neg hreset] at hok
    split at hok
    · exact absurd hok (by simp)
    next st₁ heq =>
      obtain ⟨d, hd, hall⟩ := runWalks_ext _ _ _ _ _ heq
      refine ⟨d, ?_, ?_⟩
      · rw [if_neg hreset]
        exact hall
      · injection hok with hok
        rw [← hok, hd]
        simp [if_neg hreset, List.append_assoc]

end Cindex

namespace Cindex

/-- C1, confirmed.  In incremental mode (no `-reset`, existing index) a
successful run's trace ends with: merge of the published index and the
staging file into the doubly-`~`-suffixed temporary, removal of the
staging file, the rename of the temporary onto the published index, and
the final log line — and no effect before that rename (in particular
neither the merge nor the staging-file removal) deletes or writes the
published index file, so a crash at any earlier point leaves it intact. -/
theorem c1_incremental_publish (env : Env) (cfg : Config) (encodings : List Encoding)
    (tr : List Eff) (hl : cfg.listFlag = false) (hr : cfg.resetFlag = false)
    (he : env.indexExists = true)
    (hp : parseEncodings env.getEnc cfg.encodingsFlag = .ok encodings)
    (hok : main env cfg = .ok tr) :
    ∃ pre,
      tr = pre ++
        [Eff.merge (env.indexFile ++ "~" ++ "~") env.indexFile (env.indexFile ++ "~"),
         Eff.remove (env.indexFile ++ "~"),
         Eff.rename (env.indexFile ++ "~" ++ "~") env.indexFile,
         Eff.logLine "done"] ∧
      (∀ e ∈ pre, env.indexFile ∉ Eff.writesTo e) ∧
      env.indexFile ∉ Eff.writesTo
        (Eff.merge (env.indexFile ++ "~" ++ "~") env.indexFile (env.indexFile ++ "~")) ∧
      env.indexFile ∉ Eff.writesTo (Eff.remove (env.indexFile ++ "~")) := by
  have hnr : ¬ (cfg.resetFlag = true ∨ env.indexExists = false) := by simp [hr, he]
  have hra : ¬ (cfg.resetFlag = true ∧ cfg.args = []) := by simp [hr]
  obtain ⟨d, hall, htr⟩ := main_ok_structure env cfg encodings tr hl hra hp hok
  simp only [if_neg hnr] at htr
  simp only [if_neg hnr] at hall
  refine ⟨resolveFailLogs env.abs (if cfg.args = [] then env.knownPaths else cfg.args) ++
    [Eff.create (env.indexFile ++ "~"), Eff.setVerbose cfg.verboseFlag,
     Eff.addPaths (env.indexFile ++ "~")
       (canonicalize env.abs env.readlink
         (if cfg.args = [] then env.knownPaths else cfg.args))] ++
    d ++
    [Eff.logLine "flush index", Eff.flush (env.indexFile ++ "~"),
     Eff.logLine ("merge " ++ env.indexFile ++ " " ++ (env.indexFile ++ "~"))], ?_, ?_, ?_, ?_⟩
  · rw [htr]
    simp [if_neg hnr, List.append_assoc]
  · intro e hemem
    simp only [List.mem_append, List.mem_cons, List.mem_singleton,
      List.not_mem_nil, or_false] at hemem
    rcases hemem with ((hrl | hfix) | hd) | hfl
    · obtain ⟨t, rfl⟩ := resolveFailLogs_log _ _ e hrl
      simp [Eff.writesTo]
    · rcases hfix with rfl | rfl | rfl
      · simp only [Eff.writesTo, List.mem_singleton]
        exact ne_self_append_tilde env.indexFile
      · simp [Eff.writesTo]
      · simp only [Eff.writesTo, List.mem_singleton]
        exact ne_self_append_tilde env.indexFile
    · rcases hall e hd with ⟨s, rfl⟩ | ⟨p, c, rfl, _⟩
      · simp [Eff.writesTo]
      · simp only [Eff.writesTo, List.mem_singleton]
        exact ne_self_append_tilde env.indexFile
    · rcases hfl with rfl | rfl | rfl
      · simp [Eff.writesTo]
      · simp only [Eff.writesTo, List.mem_singleton]
        exact ne_self_append_tilde env.indexFile
      · simp [Eff.writesTo]
  · simp only [Eff.writesTo, List.mem_singleton]
    exact ne_self_append_two_tildes env.indexFile
  · simp only [Eff.writesTo, List.mem_singleton]
    exact ne_self_append_tilde env.indexFile

/-- Witness for C1: a concrete incremental run over one root. -/
theorem c1_incremental_publish_witness :
    ∃ pre,
      trW = pre ++
        [Eff.merge ("IDX" ++ "~" ++ "~") "IDX" ("IDX" ++ "~"),
         Eff.remove ("IDX" ++ "~"),
         Eff.rename ("IDX" ++ "~" ++ "~") "IDX",
         Eff.logLine "done"] ∧
      (∀ e ∈ pre, "IDX" ∉ Eff.writesTo e) ∧
      "IDX" ∉ Eff.writesTo (Eff.merge ("IDX" ++ "~" ++ "~") "IDX" ("IDX" ++ "~")) ∧
      "IDX" ∉ Eff.writesTo (Eff.remove ("IDX" ++ "~")) :=
  c1_incremental_publish envW ⟨false, false, false, "", ["/r"]⟩ [] trW rfl rfl rfl rfl rfl

end Cindex

namespace Cindex

/-- C10, confirmed.  In direct mode (explicit `-reset` with paths, or no
existing published index) the session's target is the published index
location itself: the trace contains no merge, rename or remove, every
create/flush/addPaths/add targets the published index file, and the
session-creating `create` of the published index appears in the trace
before any file content is added. -/
theorem c10_direct_mode (env : Env) (cfg : Config) (encodings : List Encoding)
    (tr : List Eff) (hl : cfg.listFlag = false)
    (hra : ¬ (cfg.resetFlag = true ∧ cfg.args = []))
    (hdm : cfg.resetFlag = true ∨ env.indexExists = false)
    (hp : parseEncodings env.getEnc cfg.encodingsFlag = .ok encodings)
    (hok : main env cfg = .ok tr) :
    (∀ a b c, Eff.merge a b c ∉ tr) ∧
    (∀ a b, Eff.rename a b ∉ tr) ∧
    (∀ p, Eff.remove p ∉ tr) ∧
    (∀ p, Eff.create p ∈ tr → p = env.indexFile) ∧
    (∀ p, Eff.flush p ∈ tr → p = env.indexFile) ∧
    (∀ t p c, Eff.add t p c ∈ tr → t = env.indexFile) ∧
    (∀ t ps, Eff.addPaths t ps ∈ tr → t = env.indexFile) ∧
    (∃ pre post, tr = pre ++ Eff.create env.indexFile :: post ∧
      ∀ t p c, Eff.add t p c ∉ pre) := by
  obtain ⟨d, hall, htr⟩ := main_ok_structure env cfg encodings tr hl hra hp hok
  simp only [if_pos hdm] at htr
  simp only [if_pos hdm] at hall
  have hclass : ∀ x ∈ tr,
      (∃ s, x = Eff.logLine s) ∨ x = Eff.create env.indexFile ∨
      x = Eff.setVerbose cfg.verboseFlag ∨
      x = Eff.addPaths env.indexFile
        (canonicalize env.abs env.readlink
          (if cfg.args = [] then env.knownPaths else cfg.args)) ∨
      (∃ p c, x = Eff.add env.indexFile p c) ∨ x = Eff.flush env.indexFile := by
    intro x hx
    rw [htr] at hx
    rcases List.mem_append.mp hx with hx | hx
    swap
    · rw [List.mem_singleton] at hx
      exact Or.inl ⟨_, hx⟩
    rcases List.mem_append.mp hx with hx | hx
    swap
    · exact absurd hx (List.not_mem_nil x)
    rcases List.mem_append.mp hx with hx | hx
    swap
    · rcases List.mem_cons.mp hx with rfl | hx
      · exact Or.inl ⟨_, rfl⟩
      rw [List.mem_singleton] at hx
      exact Or.inr (Or.inr (Or.inr (Or.inr (Or.inr hx))))
    rcases List.mem_append.mp hx with hx | hx
    swap
    · rcases hall x hx with ⟨s, rfl⟩ | ⟨p, c, rfl, _⟩
      · exact Or.inl ⟨s, rfl⟩
      · exact Or.inr (Or.inr (Or.inr (Or.inr (Or.inl ⟨p, c, rfl⟩))))
    rcases List.mem_append.mp hx with hx | hx
    · obtain ⟨t, rfl⟩ := resolveFailLogs_log _ _ x hx
      exact Or.inl ⟨t, rfl⟩
    · rcases List.mem_cons.mp hx with rfl | hx
      · exact Or.inr (Or.inl rfl)
      rcases List.mem_cons.mp hx with rfl | hx
      · exact Or.inr (Or.inr (Or.inl rfl))
      rw [List.mem_singleton] at hx
      exact Or.inr (Or.inr (Or.inr (Or.inl hx)))
  refine ⟨?_, ?_, ?_, ?_, ?_, ?_, ?_, ?_⟩
  · intro a b c hmem
    rcases hclass _ hmem with ⟨s, h⟩ | h | h | h | ⟨p', c', h⟩ | h <;>
      exact absurd h (by simp)
  · intro a b hmem
    rcases hclass _ hmem with ⟨s, h⟩ | h | h | h | ⟨p', c', h⟩ | h <;>
      exact absurd h (by simp)
  · intro p hmem
    rcases hclass _ hmem with ⟨s, h⟩ | h | h | h | ⟨p', c', h⟩ | h <;>
      exact absurd h (by simp)
  · intro p hmem
    rcases hclass _ hmem with ⟨s, h⟩ | h | h | h | ⟨p', c', h⟩ | h
    · exact absurd h (by simp)
    · injection h with h1
    · exact absurd h (by simp)
    · exact absurd h (by simp)
    · exact absurd h (by simp)
    · exact absurd h (by simp)
  · intro p hmem
    rcases hclass _ hmem with ⟨s, h⟩ | h | h | h | ⟨p', c', h⟩ | h
    · exact absurd h (by simp)
    · exact absurd h (by simp)
    · exact absurd h (by simp)
    · exact absurd h (by simp)
    · exact absurd h (by simp)
    · injection h with h1
  · intro t p c hmem
    rcases hclass _ hmem with ⟨s, h⟩ | h | h | h | ⟨p', c', h⟩ | h
    · exact absurd h (by simp)
    · exact absurd h (by simp)
    · exact absurd h (by simp)
    · exact absurd h (by simp)
    · injection h with h1 h2 h3
    · exact absurd h (by simp)
  · intro t ps hmem
    rcases hclass _ hmem with ⟨s, h⟩ | h | h | h | ⟨p', c', h⟩ | h
    · exact absurd h (by simp)
    · exact absurd h (by simp)
    · exact absurd h (by simp)
    · injection h with h1 h2
    · exact absurd h (by simp)
    · exact absurd h (by simp)
  · refine ⟨resolveFailLogs env.abs (if cfg.args = [] then env.knownPaths else cfg.args),
      [Eff.setVerbose cfg.verboseFlag,
       Eff.addPaths env.indexFile
         (canonicalize env.abs env.readlink
           (if cfg.args = [] then env.knownPaths else cfg.args))] ++
      d ++ [Eff.logLine "flush index", Eff.flush env.indexFile] ++ [Eff.logLine "done"],
      ?_, ?_⟩
    · rw [htr]
      simp [List.append_assoc]
    · intro t p c hmem
      obtain ⟨s, hs⟩ := resolveFailLogs_log _ _ _ hmem
      simp at hs

/-- Witness for C10: a concrete `-reset` run with one path argument over
an existing published index. -/
theorem c10_direct_mode_witness :
    (∀ a b c, Eff.merge a b c ∉ trW10) ∧
    (∀ a b, Eff.rename a b ∉ trW10) ∧
    (∀ p, Eff.remove p ∉ trW10) ∧
    (∀ p, Eff.create p ∈ trW10 → p = "IDX") ∧
    (∀ p, Eff.flush p ∈ trW10 → p = "IDX") ∧
    (∀ t p c, Eff.add t p c ∈ trW10 → t = "IDX") ∧
    (∀ t ps, Eff.addPaths t ps ∈ trW10 → t = "IDX") ∧
    (∃ pre post, trW10 = pre ++ Eff.create "IDX" :: post ∧
      ∀ t p c, Eff.add t p c ∉ pre) :=
  c10_direct_mode envW ⟨false, true, false, "", ["/r"]⟩ [] trW10 rfl (by simp)
    (Or.inl rfl) rfl rfl

/-- C6 counterexample: a run invoked with `-reset`, no path arguments, and
an unrecognized `-encodings` name returns before the encoding list is ever
validated: nothing is logged about the bad name, and the published index
file is removed — refuting "the error is logged" and "no index file is
created or modified" as a statement about every run supplying an
unrecognized encoding name. -/
theorem c6_counterexample :
    main envW ⟨false, true, false, "bogus", []⟩ = .ok [Eff.remove "IDX"] ∧
    ¬ ∀ tr, main envW ⟨false, true, false, "bogus", []⟩ = .ok tr →
        ((∃ s, Eff.logLine s ∈ tr) ∧ ∀ p, Eff.remove p ∉ tr) := by
  refine ⟨rfl, ?_⟩
  intro hall
  obtain ⟨_, hrem⟩ := hall [Eff.remove "IDX"] rfl
  exact hrem "IDX" (by simp)

/-- C6, corrected.  In every run that reaches encoding parsing (not
`-list`, and not `-reset` with no path arguments — those two return
earlier, and the latter removes the index as its normal behavior), an
unrecognized encoding name is fatal: the name is logged and the run
returns before the index build session is created, its whole trace being
diagnostics — no index file is created, modified or removed. -/
theorem c6_unknown_encoding (env : Env) (cfg : Config) (name : String)
    (hl : cfg.listFlag = false)
    (hra : ¬ (cfg.resetFlag = true ∧ cfg.args = []))
    (hp : parseEncodings env.getEnc cfg.encodingsFlag = .error name) :
    ∃ tr, main env cfg = .ok tr ∧
      Eff.logLine (name ++ ": unknown encoding") ∈ tr ∧
      ∀ e ∈ tr, Eff.writesTo e = [] := by
  refine ⟨resolveFailLogs env.abs (if cfg.args = [] then env.knownPaths else cfg.args) ++
      [Eff.logLine (name ++ ": unknown encoding")], ?_, ?_, ?_⟩
  · simp only [main, hl, Bool.false_eq_true, if_false, if_neg hra, hp]
  · simp
  · intro e hemem
    rcases List.mem_append.mp hemem with hrl | hone
    · obtain ⟨t, rfl⟩ := resolveFailLogs_log _ _ _ hrl
      rfl
    · rw [List.mem_singleton] at hone
      subst hone
      rfl

/-- Witness for C6 (corrected form): a run with a path argument and the
unknown name `bogus` yields a pure-diagnostic trace containing the error
log. -/
theorem c6_unknown_encoding_witness :
    ∃ tr, main envW ⟨false, false, false, "bogus", ["/a"]⟩ = .ok tr ∧
      Eff.logLine ("bogus" ++ ": unknown encoding") ∈ tr ∧
      ∀ e ∈ tr, Eff.writesTo e = [] :=
  c6_unknown_encoding envW ⟨false, false, false, "bogus", ["/a"]⟩ "bogus" rfl (by simp) rfl

end Cindex
